import Mathlib

/-!
Verification of the Cliptions Commitment & Payout Engine.

Shallow embedding of the Python sources:
* `src/core/calculate_scores_payout.py` — `calculate_payouts`, `ScoreValidator`
* `src/generate_commitment.py` — `generate_commitment`
* `src/verify_commitments.py` — `verify_round_commitments`
* `src/scoring_strategies.py` — `RawSimilarityStrategy`, `BaselineAdjustedStrategy`
* `src/core/process_round_payouts.py` — `LegacyScoreValidator`

Python floats are modelled by exact rationals (`ℚ`); Python ints by `ℤ`/`ℕ`.
-/

namespace Cliptions

/-- A ranked entry: a `(guess, similarity)` pair as consumed by
`calculate_payouts` in `src/core/calculate_scores_payout.py`. -/
abbrev Entry := String × ℚ

/-- The grouping loop of `calculate_payouts` (lines 61–76 of
`src/core/calculate_scores_payout.py`): walk the ranked results, starting a
new group whenever the similarity differs from `current_similarity`
(initially `None`), and flush the pending non-empty group at each boundary
and at the end. -/
def groupLoop : List Entry → List (List Entry) → List Entry → Option ℚ → List (List Entry)
  | [], groups, current, _ =>
      if current.isEmpty then groups else groups ++ [current]
  | (g, s) :: rest, groups, current, cursim =>
      if some s ≠ cursim then
        groupLoop rest (if current.isEmpty then groups else groups ++ [current]) [(g, s)] (some s)
      else
        groupLoop rest groups (current ++ [(g, s)]) cursim

/-- The payout loop of `calculate_payouts` (lines 78–95): for each tie group
at zero-based starting `position`, total the position points
`total_guesses - (position + i)`, split them equally over the group, divide
by the triangular `denominator`, and emit one identical payout per member. -/
def payoutLoop (total_guesses : ℕ) (denominator : ℚ) (prize_pool : ℚ) :
    List (List Entry) → ℕ → List ℚ
  | [], _ => []
  | group :: rest, position =>
      let group_size := group.length
      let group_points : ℤ :=
        ∑ i in Finset.range group_size, ((total_guesses : ℤ) - (position + i : ℕ))
      let points_per_position : ℚ := (group_points : ℚ) / (group_size : ℚ)
      let score := points_per_position / denominator
      List.replicate group_size (score * prize_pool)
        ++ payoutLoop total_guesses denominator prize_pool rest (position + group_size)

/-- `calculate_payouts(ranked_results, prize_pool)` from
`src/core/calculate_scores_payout.py` (lines 35–95): position-weighted
proportional payouts over tie groups, with
`denominator = sum(range(1, total_guesses + 1))`. -/
def calculate_payouts (ranked_results : List Entry) (prize_pool : ℚ) : List ℚ :=
  let total_guesses := ranked_results.length
  let denominator : ℕ := ((List.range total_guesses).map (· + 1)).sum
  payoutLoop total_guesses (denominator : ℚ) prize_pool (groupLoop ranked_results [] [] none) 0

/-- The error taxonomy of the payout CLI: both guard failures in the
`__main__` block of `src/core/calculate_scores_payout.py` (lines 158–194)
abort with an invalid-input diagnostic. -/
inductive PayoutError
  | invalidInput
  deriving DecidableEq

/-- The `__main__` CLI wrapper of `src/core/calculate_scores_payout.py`
(lines 158–194): rejects `prize_pool <= 0` and an empty guess list before
calling `calculate_payouts`. -/
def payout_cli (prize_pool : ℚ) (ranked_results : List Entry) :
    Except PayoutError (List ℚ) :=
  if prize_pool ≤ 0 then .error .invalidInput
  else if ranked_results = [] then .error .invalidInput
  else .ok (calculate_payouts ranked_results prize_pool)

/-- Unfolding lemma for `payoutLoop` on a non-empty group list. -/
lemma payoutLoop_cons (n : ℕ) (denom prize : ℚ) (grp : List Entry)
    (rest : List (List Entry)) (pos : ℕ) :
    payoutLoop n denom prize (grp :: rest) pos
      = List.replicate grp.length
          (((((∑ i in Finset.range grp.length,
                  ((n : ℤ) - ((pos + i : ℕ) : ℤ))) : ℤ) : ℚ)
              / (grp.length : ℚ) / denom) * prize)
        ++ payoutLoop n denom prize rest (pos + grp.length) := rfl

/-- `groupLoop` flattens back to the pending state followed by the remaining
input: grouping loses no entries and preserves their order. -/
lemma groupLoop_join (rs : List Entry) :
    ∀ (groups : List (List Entry)) (current : List Entry) (cursim : Option ℚ),
      (groupLoop rs groups current cursim).flatten = groups.flatten ++ current ++ rs := by
  induction rs with
  | nil =>
      intro groups current cursim
      by_cases h : current.isEmpty = true
      · simp [groupLoop, h, List.isEmpty_iff.mp h]
      · simp [groupLoop, h]
  | cons e rest ih =>
      intro groups current cursim
      obtain ⟨g, s⟩ := e
      by_cases h1 : some s ≠ cursim
      · by_cases h2 : current.isEmpty = true
        · simp [groupLoop, h1, h2, ih, List.isEmpty_iff.mp h2]
        · simp [groupLoop, h1, h2, ih]
      · simp [groupLoop, h1, ih]

/-- Every group emitted by `groupLoop` is non-empty: the pending group is
only flushed when non-empty, and a fresh group always starts with the entry
that opened it. -/
lemma groupLoop_ne_nil (rs : List Entry) :
    ∀ (groups : List (List Entry)) (current : List Entry) (cursim : Option ℚ),
      (∀ l ∈ groups, l ≠ []) →
      ∀ l ∈ groupLoop rs groups current cursim, l ≠ [] := by
  induction rs with
  | nil =>
      intro groups current cursim hg l hl
      by_cases h : current.isEmpty = true
      · rw [groupLoop, if_pos h] at hl
        exact hg l hl
      · rw [groupLoop, if_neg h] at hl
        rcases List.mem_append.mp hl with h' | h'
        · exact hg l h'
        · have : l = current := by simpa using h'
          subst this
          simpa [List.isEmpty_iff] using h
  | cons e rest ih =>
      intro groups current cursim hg l hl
      obtain ⟨g, s⟩ := e
      by_cases h1 : some s ≠ cursim
      · rw [groupLoop, if_pos h1] at hl
        refine ih _ _ _ ?_ l hl
        intro l' hl'
        by_cases h2 : current.isEmpty = true
        · rw [if_pos h2] at hl'
          exact hg l' hl'
        · rw [if_neg h2] at hl'
          rcases List.mem_append.mp hl' with h' | h'
          · exact hg l' h'
          · have : l' = current := by simpa using h'
            subst this
            simpa [List.isEmpty_iff] using h2
      · rw [groupLoop, if_neg h1] at hl
        exact ih _ _ _ hg l hl

/-- The payout loop emits exactly one payout per group member. -/
lemma payoutLoop_length (n : ℕ) (denom prize : ℚ) (Gs : List (List Entry)) :
    ∀ pos : ℕ, (payoutLoop n denom prize Gs pos).length
      = (Gs.map List.length).sum := by
  induction Gs with
  | nil => intro pos; simp [payoutLoop]
  | cons grp rest ih =>
      intro pos
      rw [payoutLoop_cons]
      simp [ih]

/-- The Gauss sum `0 + 1 + ⋯ + (g-1)`, cast to `ℚ`. -/
lemma sum_range_cast_q (g : ℕ) :
    (∑ i in Finset.range g, (i : ℚ)) = (g : ℚ) * ((g : ℚ) - 1) / 2 := by
  induction g with
  | zero => simp
  | succ m ih =>
      rw [Finset.sum_range_succ, ih]
      push_cast
      ring

/-- Closed form of a tie group's position points, cast to `ℚ`:
`Σ_{i<g} (n - (pos+i)) = g*(n-pos) - g*(g-1)/2`. -/
lemma group_points_cast (n pos g : ℕ) :
    (((∑ i in Finset.range g, ((n : ℤ) - ((pos + i : ℕ) : ℤ))) : ℤ) : ℚ)
      
      = (g : ℚ) * ((n : ℚ) - (pos : ℚ)) - (g : ℚ) * ((g : ℚ) - 1) / 2 := by
  push_cast
  have h : ∀ i ∈ Finset.range g,
      (n : ℚ) - ((pos : ℚ) + (i : ℚ)) = ((n : ℚ) - (pos : ℚ)) - (i : ℚ) := by
    intro i _
    ring
  rw [Finset.sum_congr rfl h, Finset.sum_sub_distrib, Finset.sum_const,
    Finset.card_range, nsmul_eq_mul, sum_range_cast_q]

/-- Potential function for the running total of position points:
`triF n p = Σ_{i<p} (n - i)` in closed form. -/
def triF (n p : ℕ) : ℚ := (p : ℚ) * (n : ℚ) - (p : ℚ) * ((p : ℚ) - 1) / 2

/-- The payout loop distributes `prize/denominator` times the position
points covered by the groups: a telescoping sum over the group walk. -/
lemma payoutLoop_sum (n : ℕ) (denom prize : ℚ) (hd : denom ≠ 0)
    (Gs : List (List Entry)) :
    ∀ pos : ℕ, (∀ l ∈ Gs, l ≠ []) →
      (payoutLoop n denom prize Gs pos).sum
        = prize / denom * (triF n (pos + Gs.flatten.length) - triF n pos) := by
  induction Gs with
  | nil => intro pos _; simp [payoutLoop, triF]
  | cons grp rest ih =>
      intro pos h
      have hg : grp ≠ [] := h grp (by simp)
      have hg0 : (grp.length : ℚ) ≠ 0 := by
        exact_mod_cast (List.length_pos.mpr hg).ne'
      have ihr := ih (pos + grp.length) (fun l hl => h l (List.mem_cons_of_mem _ hl))
      rw [payoutLoop_cons, List.sum_append, List.sum_replicate, nsmul_eq_mul,
        group_points_cast, ihr]
      simp only [List.flatten_cons, List.length_append, triF]
      push_cast
      field_simp
      ring

/-- The triangular denominator `sum(range(1, n + 1))`, cast to `ℚ`. -/
lemma denominator_cast (n : ℕ) :
    ((((List.range n).map (· + 1)).sum : ℕ) : ℚ) = (n : ℚ) * ((n : ℚ) + 1) / 2 := by
  induction n with
  | zero => simp
  | succ m ih =>
      rw [List.range_succ, List.map_append, List.sum_append, Nat.cast_add, ih]
      simp
      ring

/-- `calculate_payouts` returns exactly one payout per ranked entry. -/
lemma calculate_payouts_length_aux (ranked : List Entry) (prize_pool : ℚ) :
    (calculate_payouts ranked prize_pool).length = ranked.length := by
  unfold calculate_payouts
  rw [payoutLoop_length]
  rw [← List.length_flatten, groupLoop_join]
  simp

/-- C1: for every non-empty ranked list sorted descending by score and every
positive prize pool, the payouts of `calculate_payouts` sum exactly to the
prize pool (in exact rational arithmetic): the position-weighted tie-group
weights sum to 1. -/
theorem calculate_payouts_sum_eq_prize_pool
    (ranked : List Entry) (prize_pool : ℚ)
    (hne : ranked ≠ [])
    (hsorted : List.Pairwise (fun a b : Entry => b.2 ≤ a.2) ranked)
    (hpos : 0 < prize_pool) :
    (calculate_payouts ranked prize_pool).sum = prize_pool := by
  unfold calculate_payouts
  have hn : 0 < ranked.length := List.length_pos.mpr hne
  have hnq : (0 : ℚ) < (ranked.length : ℚ) := by exact_mod_cast hn
  have hd0 : ((((List.range ranked.length).map (· + 1)).sum : ℕ) : ℚ) ≠ 0 := by
    rw [denominator_cast]
    positivity
  rw [payoutLoop_sum _ _ _ hd0 _ 0 (groupLoop_ne_nil ranked [] [] none (by simp))]
  rw [groupLoop_join]
  simp only [List.flatten_nil, List.nil_append, List.length_nil, Nat.zero_add, triF]
  rw [denominator_cast]
  have htri : (0 : ℚ) < (ranked.length : ℚ) * ((ranked.length : ℚ) + 1) / 2 := by
    positivity
  field_simp
  ring

/-- C1 witness: two distinct scores and prize pool 1 sum to 1. -/
theorem calculate_payouts_sum_eq_prize_pool_witness :
    (calculate_payouts [("a", 1), ("b", 0)] 1).sum = 1 :=
  calculate_payouts_sum_eq_prize_pool [("a", 1), ("b", 0)] 1
    (by decide) (by decide) (by decide)

/-- C9: `calculate_payouts` always returns a list of exactly the same length
as its input, in input order (one payout per ranked entry, `i`-th payout for
the `i`-th entry); in particular the empty input yields the empty list
rather than an error. -/
theorem calculate_payouts_length_preserved :
    (∀ (ranked : List Entry) (prize_pool : ℚ),
        (calculate_payouts ranked prize_pool).length = ranked.length)
      ∧ ∀ prize_pool : ℚ, calculate_payouts [] prize_pool = [] :=
  ⟨calculate_payouts_length_aux, fun _ => rfl⟩

/-- C2 counterexample: `calculate_payouts` itself rejects nothing — at
`prize_pool = -5` (≤ 0) it returns the payout list `[-5]`, and on the empty
participant list it returns `[]`; in neither case is an `InvalidInput`
failure raised. -/
theorem calculate_payouts_no_validation_counterexample :
    calculate_payouts [("a", 1)] (-5) = [-5] ∧ calculate_payouts [] 1 = [] := by
  refine ⟨?_, rfl⟩
  norm_num [calculate_payouts, groupLoop, payoutLoop, Finset.sum_range_succ,
    Finset.sum_range_zero, List.range_succ]

/-- C2 amended: the input validation lives in the `__main__` CLI wrapper,
which fails with an invalid-input error exactly when `prize_pool ≤ 0` or the
guess list is empty; `calculate_payouts` itself performs no validation and
returns one payout per entry for every input. -/
theorem payout_cli_invalid_input_iff (prize_pool : ℚ) (ranked : List Entry) :
    (payout_cli prize_pool ranked = .error .invalidInput
        ↔ prize_pool ≤ 0 ∨ ranked = [])
      ∧ (calculate_payouts ranked prize_pool).length = ranked.length := by
  refine ⟨?_, calculate_payouts_length_aux ranked prize_pool⟩
  unfold payout_cli
  by_cases h1 : prize_pool ≤ 0
  · simp [h1]
  · by_cases h2 : ranked = []
    · simp [h1, h2]
    · simp [h1, h2]

/-- Head score of a tie group: the score of its first member. -/
def headScore (l : List Entry) : ℚ := l.headI.2

/-- A well-formed tie group: non-empty, and every member carries the group's
single score. -/
def GoodGroup (l : List Entry) : Prop := l ≠ [] ∧ ∀ e ∈ l, e.2 = headScore l

/-- Running `groupLoop` on a descending-sorted remainder, with a non-empty
constant-score pending group whose score sits strictly below every flushed
group's score, yields well-formed groups with strictly decreasing scores. -/
lemma groupLoop_sorted_invariant (rs : List Entry) :
    ∀ (groups : List (List Entry)) (current : List Entry) (c : ℚ),
      current ≠ [] →
      (∀ e ∈ current, e.2 = c) →
      (∀ l ∈ groups, GoodGroup l) →
      List.Chain' (· > ·) (groups.map headScore ++ [c]) →
      (∀ e ∈ rs, e.2 ≤ c) →
      List.Pairwise (fun a b : Entry => b.2 ≤ a.2) rs →
      (∀ l ∈ groupLoop rs groups current (some c), GoodGroup l)
        ∧ List.Chain' (· > ·) ((groupLoop rs groups current (some c)).map headScore) := by
  induction rs with
  | nil =>
      intro groups current c hcne hcc hG hchain _ _
      have hhead : headScore current = c := by
        cases current with
        | nil => exact absurd rfl hcne
        | cons a t => exact hcc a (List.mem_cons_self a t)
      rw [groupLoop, if_neg (by simp [List.isEmpty_iff, hcne])]
      constructor
      · intro l hl
        rcases List.mem_append.mp hl with h | h
        · exact hG l h
        · have : l = current := by simpa using h
          subst this
          exact ⟨hcne, fun e he => by rw [hhead]; exact hcc e he⟩
      · rw [List.map_append]
        simpa [hhead] using hchain
  | cons e rest ih =>
      intro groups current c hcne hcc hG hchain hle hsor
      obtain ⟨g, s⟩ := e
      have hsc : s ≤ c := hle (g, s) (List.mem_cons_self _ _)
      by_cases hne : s = c
      · rw [groupLoop, if_neg (by simp [hne])]
        refine ih groups (current ++ [(g, s)]) c (by simp) ?_ hG hchain
          (fun e' he' => hle e' (List.mem_cons_of_mem _ he')) hsor.of_cons
        intro e' he'
        rcases List.mem_append.mp he' with h | h
        · exact hcc e' h
        · have : e' = (g, s) := by simpa using h
          subst this
          exact hne
      · have hlt : s < c := lt_of_le_of_ne hsc hne
        have hhead : headScore current = c := by
          cases current with
          | nil => exact absurd rfl hcne
          | cons a t => exact hcc a (List.mem_cons_self a t)
        rw [groupLoop, if_pos (by simp [hne]), if_neg (by simp [List.isEmpty_iff, hcne])]
        refine ih (groups ++ [current]) [(g, s)] s (by simp) (by simp)
          ?_ ?_ (fun e' he' => (List.pairwise_cons.mp hsor).1 e' he') hsor.of_cons
        · intro l hl
          rcases List.mem_append.mp hl with h | h
          · exact hG l h
          · have : l = current := by simpa using h
            subst this
            exact ⟨hcne, fun e' he' => by rw [hhead]; exact hcc e' he'⟩
        · rw [List.map_append]
          refine List.Chain'.append ?_ (List.chain'_singleton s) ?_
          · simpa [hhead] using hchain
          · intro x hx y hy
            simp only [List.map_cons, List.map_nil] at hx
            rw [List.getLast?_concat] at hx
            simp only [List.head?_cons, Option.mem_def, Option.some.injEq] at hx hy
            subst hx
            subst hy
            simpa [hhead] using hlt

/-- On a descending-sorted ranked list, `groupLoop` produces well-formed
tie groups whose scores strictly decrease in rank order. -/
lemma groupLoop_sorted_struct (ranked : List Entry)
    (hsorted : List.Pairwise (fun a b : Entry => b.2 ≤ a.2) ranked) :
    (∀ l ∈ groupLoop ranked [] [] none, GoodGroup l)
      ∧ List.Chain' (· > ·) ((groupLoop ranked [] [] none).map headScore) := by
  cases ranked with
  | nil => simp [groupLoop]
  | cons e rest =>
      obtain ⟨g, s⟩ := e
      rw [groupLoop, if_pos (by simp)]
      exact groupLoop_sorted_invariant rest [] [(g, s)] s (by simp) (by simp)
        (by simp) (by simp) (fun e' he' => (List.pairwise_cons.mp hsorted).1 e' he')
        hsorted.of_cons

/-- The per-member weight of the tie group of size `g` starting at zero-based
`pos`: its average position points over the triangular denominator. -/
def memberWeight (n : ℕ) (denom : ℚ) (pos g : ℕ) : ℚ :=
  (((∑ i in Finset.range g, ((n : ℤ) - ((pos + i : ℕ) : ℤ))) : ℤ) : ℚ) / (g : ℚ) / denom

/-- `payoutLoop` in terms of `memberWeight`. -/
lemma payoutLoop_cons_weight (n : ℕ) (denom prize : ℚ) (grp : List Entry)
    (rest : List (List Entry)) (pos : ℕ) :
    payoutLoop n denom prize (grp :: rest) pos
      = List.replicate grp.length (memberWeight n denom pos grp.length * prize)
        ++ payoutLoop n denom prize rest (pos + grp.length) := rfl

/-- Closed form of the per-member weight for a non-empty group. -/
lemma memberWeight_closed (n pos g : ℕ) (denom : ℚ) (hg : g ≠ 0) :
    memberWeight n denom pos g
      = ((n : ℚ) - (pos : ℚ) - ((g : ℚ) - 1) / 2) / denom := by
  unfold memberWeight
  have hgq : (g : ℚ) ≠ 0 := Nat.cast_ne_zero.mpr hg
  have hA : ((g : ℚ) * ((n : ℚ) - (pos : ℚ)) - (g : ℚ) * ((g : ℚ) - 1) / 2) / (g : ℚ)
      = (n : ℚ) - (pos : ℚ) - ((g : ℚ) - 1) / 2 := by
    field_simp
    ring
  rw [group_points_cast, hA]

/-- Per-member weights strictly decrease from one tie group to the next:
the group after one of size `g` starts `g` positions later. -/
lemma memberWeight_lt (n pos g g' : ℕ) (denom : ℚ)
    (hg : g ≠ 0) (hg' : g' ≠ 0) (hd : 0 < denom) :
    memberWeight n denom (pos + g) g' < memberWeight n denom pos g := by
  rw [memberWeight_closed n (pos + g) g' denom hg', memberWeight_closed n pos g denom hg]
  have h1 : (1 : ℚ) ≤ (g : ℚ) := by exact_mod_cast Nat.one_le_iff_ne_zero.mpr hg
  have h2 : (1 : ℚ) ≤ (g' : ℚ) := by exact_mod_cast Nat.one_le_iff_ne_zero.mpr hg'
  have hnum : (n : ℚ) - ((pos + g : ℕ) : ℚ) - ((g' : ℚ) - 1) / 2
      < (n : ℚ) - (pos : ℚ) - ((g : ℚ) - 1) / 2 := by
    push_cast
    linarith
  exact div_lt_div_of_pos_right hnum hd

/-- Tag every group member with its `(score, payout)` pair: the flattening
of this list is the zip of scores with `payoutLoop`'s payouts. -/
def tagLoop (n : ℕ) (denom prize : ℚ) : List (List Entry) → ℕ → List (List (ℚ × ℚ))
  | [], _ => []
  | grp :: rest, pos =>
      grp.map (fun e => (e.2, memberWeight n denom pos grp.length * prize))
        :: tagLoop n denom prize rest (pos + grp.length)

/-- The second components of the tags are exactly the payouts. -/
lemma tagLoop_flatten_snd (n : ℕ) (denom prize : ℚ) (Gs : List (List Entry)) :
    ∀ pos, ((tagLoop n denom prize Gs pos).flatten).map Prod.snd
      = payoutLoop n denom prize Gs pos := by
  induction Gs with
  | nil => intro pos; simp [tagLoop, payoutLoop]
  | cons grp rest ih =>
      intro pos
      rw [tagLoop, payoutLoop_cons_weight, List.flatten_cons, List.map_append, ih,
        List.map_map]
      congr 1
      exact List.map_const' grp _

/-- The first components of the tags are exactly the scores, in order. -/
lemma tagLoop_flatten_fst (n : ℕ) (denom prize : ℚ) (Gs : List (List Entry)) :
    ∀ pos, ((tagLoop n denom prize Gs pos).flatten).map Prod.fst
      = Gs.flatten.map Prod.snd := by
  induction Gs with
  | nil => intro pos; simp [tagLoop]
  | cons grp rest ih =>
      intro pos
      rw [tagLoop, List.flatten_cons, List.flatten_cons, List.map_append, ih,
        List.map_append, List.map_map]
      rfl

/-- Every tagged entry below a given group has a strictly smaller score than
that group's and a payout no larger than that group's per-member payout. -/
lemma tagLoop_bound (n : ℕ) (denom prize : ℚ) (hd : 0 < denom) (hp : 0 < prize)
    (Gs : List (List Entry)) :
    ∀ (grp : List Entry) (pos : ℕ),
      (∀ l ∈ grp :: Gs, GoodGroup l) →
      List.Chain' (· > ·) ((grp :: Gs).map headScore) →
      ∀ y ∈ (tagLoop n denom prize (grp :: Gs) pos).flatten,
        y.1 ≤ headScore grp ∧ y.2 ≤ memberWeight n denom pos grp.length * prize := by
  induction Gs with
  | nil =>
      intro grp pos hG _ y hy
      simp only [tagLoop, List.flatten_cons, List.flatten_nil, List.append_nil] at hy
      obtain ⟨e, he, rfl⟩ := List.mem_map.mp hy
      exact ⟨le_of_eq ((hG grp (by simp)).2 e he), le_refl _⟩
  | cons grp2 rest ih =>
      intro grp pos hG hchain y hy
      rw [tagLoop, List.flatten_cons] at hy
      rcases List.mem_append.mp hy with h | h
      · obtain ⟨e, he, rfl⟩ := List.mem_map.mp h
        exact ⟨le_of_eq ((hG grp (by simp)).2 e he), le_refl _⟩
      · have hG2 : ∀ l ∈ grp2 :: rest, GoodGroup l :=
          fun l hl => hG l (List.mem_cons_of_mem _ hl)
        have hch : List.Chain' (· > ·)
            (headScore grp :: headScore grp2 :: rest.map headScore) := by
          simpa using hchain
        have hchain' := List.chain'_cons.mp hch
        obtain ⟨hy1, hy2⟩ := ih grp2 (pos + grp.length) hG2 (by simpa using hchain'.2) y h
        have hgne : grp.length ≠ 0 := (List.length_pos.mpr (hG grp (by simp)).1).ne'
        have hg2ne : grp2.length ≠ 0 := (List.length_pos.mpr (hG2 grp2 (by simp)).1).ne'
        have hw := memberWeight_lt n pos grp.length grp2.length denom hgne hg2ne hd
        exact ⟨le_trans hy1 (le_of_lt hchain'.1),
          le_trans hy2 (mul_le_mul_of_nonneg_right (le_of_lt hw) (le_of_lt hp))⟩

/-- The relation claimed between any two `(score, payout)` pairs: identical
scores get identical payouts, and a strictly higher score never gets a
strictly lower payout. -/
def PayoutRel (a b : ℚ × ℚ) : Prop :=
  (a.1 = b.1 → a.2 = b.2) ∧ (b.1 < a.1 → b.2 ≤ a.2) ∧ (a.1 < b.1 → a.2 ≤ b.2)

/-- Over well-formed strictly-descending tie groups, every ordered pair of
tagged `(score, payout)` entries satisfies `PayoutRel`. -/
lemma tagLoop_pairwise (n : ℕ) (denom prize : ℚ) (hd : 0 < denom) (hp : 0 < prize)
    (Gs : List (List Entry)) :
    ∀ pos, (∀ l ∈ Gs, GoodGroup l) →
      List.Chain' (· > ·) (Gs.map headScore) →
      List.Pairwise PayoutRel (tagLoop n denom prize Gs pos).flatten := by
  induction Gs with
  | nil => intro pos _ _; simp [tagLoop]
  | cons grp rest ih =>
      intro pos hG hchain
      rw [tagLoop, List.flatten_cons, List.pairwise_append]
      refine ⟨?_, ?_, ?_⟩
      · refine List.pairwise_of_forall_mem_list ?_
        intro a ha b hb
        obtain ⟨ea, _, rfl⟩ := List.mem_map.mp ha
        obtain ⟨eb, _, rfl⟩ := List.mem_map.mp hb
        exact ⟨fun _ => rfl, fun _ => le_rfl, fun _ => le_rfl⟩
      · refine ih (pos + grp.length) (fun l hl => hG l (List.mem_cons_of_mem _ hl)) ?_
        have := List.Chain'.tail hchain
        simpa using this
      · intro a ha b hb
        obtain ⟨ea, hea, rfl⟩ := List.mem_map.mp ha
        cases rest with
        | nil => simp [tagLoop] at hb
        | cons grp2 rest' =>
            have hG2 : ∀ l ∈ grp2 :: rest', GoodGroup l :=
              fun l hl => hG l (List.mem_cons_of_mem _ hl)
            have hch : List.Chain' (· > ·)
                (headScore grp :: headScore grp2 :: rest'.map headScore) := by
              simpa using hchain
            have hchain' := List.chain'_cons.mp hch
            obtain ⟨hb1, hb2⟩ := tagLoop_bound n denom prize hd hp rest' grp2
              (pos + grp.length) hG2 (by simpa using hchain'.2) b hb
            have h1 : ea.2 = headScore grp := (hG grp (by simp)).2 ea hea
            have hgne : grp.length ≠ 0 := (List.length_pos.mpr (hG grp (by simp)).1).ne'
            have hg2ne : grp2.length ≠ 0 := (List.length_pos.mpr (hG2 grp2 (by simp)).1).ne'
            have hw := memberWeight_lt n pos grp.length grp2.length denom hgne hg2ne hd
            have hb1' : b.1 < ea.2 := by
              rw [h1]
              exact lt_of_le_of_lt hb1 hchain'.1
            have hb2' : b.2 ≤ memberWeight n denom pos grp.length * prize :=
              le_trans hb2 (mul_le_mul_of_nonneg_right (le_of_lt hw) (le_of_lt hp))
            exact ⟨fun heq => absurd heq.symm (ne_of_lt hb1'),
              fun _ => hb2', fun h => absurd h (not_lt.mpr hb1'.le)⟩

/-- C6: on a descending-sorted ranked list with a positive prize pool,
any two participants with identical scores receive identical payouts, and a
participant with a strictly higher score never receives a strictly lower
payout: every ordered pair of the score/payout zip satisfies `PayoutRel`. -/
theorem calculate_payouts_tie_equal_and_monotone
    (ranked : List Entry) (prize_pool : ℚ)
    (hsorted : List.Pairwise (fun a b : Entry => b.2 ≤ a.2) ranked)
    (hpos : 0 < prize_pool) :
    List.Pairwise PayoutRel
      ((ranked.map Prod.snd).zip (calculate_payouts ranked prize_pool)) := by
  by_cases hne : ranked = []
  · subst hne
    simp
  · have hn : 0 < ranked.length := List.length_pos.mpr hne
    have hnq : (0 : ℚ) < (ranked.length : ℚ) := by exact_mod_cast hn
    have hd : (0 : ℚ) < ((((List.range ranked.length).map (· + 1)).sum : ℕ) : ℚ) := by
      rw [denominator_cast]
      positivity
    obtain ⟨hG, hchain⟩ := groupLoop_sorted_struct ranked hsorted
    have hflat : (groupLoop ranked [] [] none).flatten = ranked := by
      simpa using groupLoop_join ranked [] [] none
    have hfst : ranked.map Prod.snd
        = ((tagLoop ranked.length ((((List.range ranked.length).map (· + 1)).sum : ℕ) : ℚ)
            prize_pool (groupLoop ranked [] [] none) 0).flatten).map Prod.fst := by
      rw [tagLoop_flatten_fst, hflat]
    have hsnd : calculate_payouts ranked prize_pool
        = ((tagLoop ranked.length ((((List.range ranked.length).map (· + 1)).sum : ℕ) : ℚ)
            prize_pool (groupLoop ranked [] [] none) 0).flatten).map Prod.snd := by
      unfold calculate_payouts
      exact (tagLoop_flatten_snd _ _ _ _ _).symm
    rw [hfst, hsnd, List.zip_map']
    simp only [Prod.mk.eta, List.map_id, List.map_id']
    exact tagLoop_pairwise _ _ _ hd hpos _ 0 hG hchain

/-- C6 witness: with scores `[1, 1]` and prize pool 1 the pairwise relation
holds on the score/payout zip. -/
theorem calculate_payouts_tie_equal_and_monotone_witness :
    List.Pairwise PayoutRel
      (([(("a" : String), (1 : ℚ)), ("b", 1)].map Prod.snd).zip
        (calculate_payouts [("a", 1), ("b", 1)] 1)) :=
  calculate_payouts_tie_equal_and_monotone [("a", 1), ("b", 1)] 1 (by decide) (by decide)

/-! ### SHA-256 (the `hashlib.sha256` dependency of `src/generate_commitment.py`)

Bytes are naturals `< 256`; 32-bit words are naturals reduced `% 2^32`. -/

/-- `2^32`, the modulus of SHA-256 word arithmetic. -/
def w32 : ℕ := 4294967296

/-- Right rotation of a 32-bit word. -/
def rotr32 (x n : ℕ) : ℕ := ((x >>> n) ||| (x <<< (32 - n))) % w32

/-- Bitwise complement within 32 bits. -/
def not32 (x : ℕ) : ℕ := x ^^^ (w32 - 1)

/-- SHA-256 choice function. -/
def shaCh (x y z : ℕ) : ℕ := (x &&& y) ^^^ (not32 x &&& z)

/-- SHA-256 majority function. -/
def shaMaj (x y z : ℕ) : ℕ := (x &&& y) ^^^ (x &&& z) ^^^ (y &&& z)

/-- SHA-256 big sigma 0. -/
def bsig0 (x : ℕ) : ℕ := rotr32 x 2 ^^^ rotr32 x 13 ^^^ rotr32 x 22

/-- SHA-256 big sigma 1. -/
def bsig1 (x : ℕ) : ℕ := rotr32 x 6 ^^^ rotr32 x 11 ^^^ rotr32 x 25

/-- SHA-256 small sigma 0. -/
def ssig0 (x : ℕ) : ℕ := rotr32 x 7 ^^^ rotr32 x 18 ^^^ (x >>> 3)

/-- SHA-256 small sigma 1. -/
def ssig1 (x : ℕ) : ℕ := rotr32 x 17 ^^^ rotr32 x 19 ^^^ (x >>> 10)

/-- The 64 SHA-256 round constants. -/
def K256 : List ℕ :=
  [1116352408, 1899447441, 3049323471, 3921009573, 961987163,
   1508970993, 2453635748, 2870763221, 3624381080, 310598401,
   607225278, 1426881987, 1925078388, 2162078206, 2614888103,
   3248222580, 3835390401, 4022224774, 264347078, 604807628,
   770255983, 1249150122, 1555081692, 1996064986, 2554220882,
   2821834349, 2952996808, 3210313671, 3336571891, 3584528711,
   113926993, 338241895, 666307205, 773529912, 1294757372,
   1396182291, 1695183700, 1986661051, 2177026350, 2456956037,
   2730485921, 2820302411, 3259730800, 3345764771, 3516065817,
   3600352804, 4094571909, 275423344, 430227734, 506948616,
   659060556, 883997877, 958139571, 1322822218, 1537002063,
   1747873779, 1955562222, 2024104815, 2227730452, 2361852424,
   2428436474, 2756734187, 3204031479, 3329325298]

/-- The SHA-256 initial hash state. -/
def H256 : List ℕ :=
  [1779033703, 3144134277, 1013904242, 2773480762,
   1359893119, 2600822924, 528734635, 1541459225]

/-- One step of splitting a byte list into 64-byte chunks. -/
def chunkStep (acc : List (List ℕ) × List ℕ) (b : ℕ) : List (List ℕ) × List ℕ :=
  let cur := acc.2 ++ [b]
  if cur.length = 64 then (acc.1 ++ [cur], []) else (acc.1, cur)

/-- Split a byte list whose length is a multiple of 64 into 64-byte chunks. -/
def chunks64 (l : List ℕ) : List (List ℕ) := (l.foldl chunkStep ([], [])).1

/-- Big-endian conversion of bytes to 32-bit words, four at a time. -/
def bytesToWords32 : List ℕ → List ℕ
  | b0 :: b1 :: b2 :: b3 :: rest =>
      (((b0 * 256 + b1) * 256 + b2) * 256 + b3) :: bytesToWords32 rest
  | _ => []

/-- One extension step of the SHA-256 message schedule. -/
def scheduleStep (w : List ℕ) (_ : ℕ) : List ℕ :=
  w ++ [(ssig1 (w.getD (w.length - 2) 0) + w.getD (w.length - 7) 0
          + ssig0 (w.getD (w.length - 15) 0) + w.getD (w.length - 16) 0) % w32]

/-- Extend 16 schedule words to the full 64. -/
def schedule (w16 : List ℕ) : List ℕ := (List.range 48).foldl scheduleStep w16

/-- One SHA-256 compression round on the 8-word working state. -/
def compressStep (st : List ℕ) (kw : ℕ × ℕ) : List ℕ :=
  match st with
  | [a, b, c, d, e, f, g, h] =>
      let t1 := (h + bsig1 e + shaCh e f g + kw.1 + kw.2) % w32
      let t2 := (bsig0 a + shaMaj a b c) % w32
      [(t1 + t2) % w32, a, b, c, (d + t1) % w32, e, f, g]
  | other => other

/-- Process one 64-byte block: run the 64 compression rounds and add the
result back into the running hash state. -/
def processBlock (h : List ℕ) (block : List ℕ) : List ℕ :=
  let st := (K256.zip (schedule (bytesToWords32 block))).foldl compressStep h
  (h.zip st).map (fun p => (p.1 + p.2) % w32)

/-- The 8-byte big-endian bit-length field of SHA-256 padding. -/
def lenBytes (L : ℕ) : List ℕ :=
  let bits := 8 * L
  [bits / 2 ^ 56 % 256, bits / 2 ^ 48 % 256, bits / 2 ^ 40 % 256,
   bits / 2 ^ 32 % 256, bits / 2 ^ 24 % 256, bits / 2 ^ 16 % 256,
   bits / 2 ^ 8 % 256, bits % 256]

/-- SHA-256 padding: `0x80`, zeros to 56 mod 64, then the bit length. -/
def shaPad (msg : List ℕ) : List ℕ :=
  msg ++ [128] ++ List.replicate ((119 - msg.length % 64) % 64) 0 ++ lenBytes msg.length

/-- Big-endian bytes of one 32-bit word. -/
def wordToBytes (x : ℕ) : List ℕ :=
  [x / 2 ^ 24 % 256, x / 2 ^ 16 % 256, x / 2 ^ 8 % 256, x % 256]

/-- SHA-256 of a byte list, as its 32 digest bytes. -/
def sha256 (msg : List ℕ) : List ℕ :=
  (((chunks64 (shaPad msg)).foldl processBlock H256).map wordToBytes).flatten

/-- The sixteen lowercase hexadecimal digits. -/
def hexDigits : List Char := "0123456789abcdef".toList

/-- The lowercase hex digit of a nibble. -/
def hexChar (n : ℕ) : Char := hexDigits.getD n '0'

/-- Two lowercase hex digits of a byte. -/
def byteToHex (b : ℕ) : List Char := [hexChar (b / 16), hexChar (b % 16)]

/-- Lowercase hex string of a byte list (`hexdigest` in Python). -/
def bytesToHex (bs : List ℕ) : String := String.mk ((bs.map byteToHex).flatten)

/-- UTF-8 encoding of one character (Python `str.encode()`), as bytes. -/
def utf8EncodeChar (c : Char) : List ℕ :=
  let n := c.toNat
  if n < 128 then [n]
  else if n < 2048 then [192 + n / 64, 128 + n % 64]
  else if n < 65536 then [224 + n / 4096, 128 + n / 64 % 64, 128 + n % 64]
  else [240 + n / 262144, 128 + n / 4096 % 64, 128 + n / 64 % 64, 128 + n % 64]

/-- UTF-8 encoding of a string (Python `str.encode()`). -/
def utf8Encode (s : String) : List ℕ := (s.toList.map utf8EncodeChar).flatten

/-- The failure raised by `generate_commitment` (Python `ValueError`,
the spec's `InvalidInput`). -/
inductive CommitError
  | invalidInput
  deriving DecidableEq

/-- The digest computed by `generate_commitment` once the salt check has
passed: `sha256(message.encode() + salt.encode()).hexdigest()`. -/
def commitment_digest (message salt : String) : String :=
  bytesToHex (sha256 (utf8Encode message ++ utf8Encode salt))

/-- `generate_commitment(message, salt)` from `src/generate_commitment.py`
(lines 5–19): raises on falsy (empty) salt, otherwise returns the lowercase
hex SHA-256 digest of the concatenated UTF-8 encodings. -/
def generate_commitment (message salt : String) : Except CommitError String :=
  if salt = "" then .error .invalidInput
  else .ok (commitment_digest message salt)

/-- The verification comparison of `src/verify_commitments.py` (lines
47–51): recompute the commitment from the revealed pair and compare it with
the stored hash. -/
def verify_commitment (message salt expectedHash : String) : Bool :=
  match generate_commitment message salt with
  | .ok d => d == expectedHash
  | .error _ => false

/-- A participant record of a round in `rounds/guesses.json`: stored
commitment hash, optional revealed `guess` and `salt` (absent or empty
before reveal), and the persisted `valid` flag. -/
structure Participant where
  username : String
  guess : Option String
  salt : Option String
  commitment : String
  valid : Bool
  deriving DecidableEq

/-- Python truthiness test `not field` for an optional string field read
from JSON: both `None` (JSON `null`/absent) and `""` are falsy. -/
def falsyStr : Option String → Bool
  | none => true
  | some s => s = ""

/-- One iteration of the verification loop of `verify_round_commitments`
(lines 35–59 of `src/verify_commitments.py`): skip a participant whose
guess or salt is falsy (leaving the record untouched but dragging
`all_valid` to false), otherwise recompute the commitment and set `valid`
to the comparison result. Returns the updated record and this participant's
contribution to `all_valid`. -/
def verify_participant (p : Participant) : Participant × Bool :=
  if falsyStr p.guess || falsyStr p.salt then (p, false)
  else if commitment_digest (p.guess.getD "") (p.salt.getD "")
      == p.commitment then ({ p with valid := true }, true)
  else ({ p with valid := false }, false)

/-- `verify_round_commitments` of `src/verify_commitments.py` (lines 7–65),
restricted to the participant processing: an empty participant list returns
false without writing the store; otherwise every participant is processed,
the updated records are written back unconditionally (the `some` result),
and the returned flag is the conjunction of the per-participant results. -/
def verify_round_commitments (participants : List Participant) :
    Option (List Participant) × Bool :=
  if participants = [] then (none, false)
  else
    let results := participants.map verify_participant
    (some (results.map Prod.fst), results.all Prod.snd)

/-- `verify_participant` leaves a participant with falsy guess or salt
completely untouched and reports false. -/
lemma verify_participant_missing (p : Participant)
    (h : falsyStr p.guess = true ∨ falsyStr p.salt = true) :
    verify_participant p = (p, false) := by
  unfold verify_participant
  rcases h with h | h <;> simp [h]

/-- `verify_participant` on a fully revealed participant sets `valid` to the
hash comparison and reports it. -/
lemma verify_participant_data (p : Participant)
    (h1 : falsyStr p.guess = false) (h2 : falsyStr p.salt = false) :
    (verify_participant p).1.valid
        = (commitment_digest (p.guess.getD "") (p.salt.getD "") == p.commitment)
      ∧ (verify_participant p).2
        = (commitment_digest (p.guess.getD "") (p.salt.getD "") == p.commitment) := by
  unfold verify_participant
  by_cases h3 : commitment_digest (p.guess.getD "") (p.salt.getD "") == p.commitment <;>
    simp [h1, h2, h3]

/-- The per-participant success flag holds exactly on a fully revealed
participant whose recomputed hash matches the stored one. -/
lemma verify_participant_snd (p : Participant) :
    (verify_participant p).2 = true
      ↔ falsyStr p.guess = false ∧ falsyStr p.salt = false
          ∧ commitment_digest (p.guess.getD "") (p.salt.getD "") = p.commitment := by
  unfold verify_participant
  by_cases h1 : falsyStr p.guess <;> by_cases h2 : falsyStr p.salt <;>
    by_cases h3 : commitment_digest (p.guess.getD "") (p.salt.getD "") = p.commitment <;>
    simp [h1, h2, h3]

/-- A compression round keeps the working state at 8 words. -/
lemma compressStep_length (st : List ℕ) (kw : ℕ × ℕ) (h : st.length = 8) :
    (compressStep st kw).length = 8 := by
  unfold compressStep
  split
  · rfl
  · exact h

/-- The 64 compression rounds keep the working state at 8 words. -/
lemma foldl_compressStep_length (l : List (ℕ × ℕ)) :
    ∀ st : List ℕ, st.length = 8 → (l.foldl compressStep st).length = 8 := by
  induction l with
  | nil => intro st h; exact h
  | cons kw rest ih => intro st h; exact ih _ (compressStep_length st kw h)

/-- Processing a block keeps the hash state at 8 words. -/
lemma processBlock_length (h : List ℕ) (block : List ℕ) (hl : h.length = 8) :
    (processBlock h block).length = 8 := by
  unfold processBlock
  rw [List.length_map, List.length_zip, hl,
    foldl_compressStep_length _ h hl]
  decide

/-- Folding over all blocks keeps the hash state at 8 words. -/
lemma foldl_processBlock_length (blocks : List (List ℕ)) :
    ∀ h : List ℕ, h.length = 8 → (blocks.foldl processBlock h).length = 8 := by
  induction blocks with
  | nil => intro h hl; exact hl
  | cons b rest ih => intro h hl; exact ih _ (processBlock_length h b hl)

/-- A SHA-256 digest is exactly 32 bytes, whatever the message. -/
lemma sha256_length (msg : List ℕ) : (sha256 msg).length = 32 := by
  unfold sha256
  rw [List.length_flatten, List.map_map]
  have hc : (List.length ∘ wordToBytes) = fun _ : ℕ => 4 := funext fun x => rfl
  rw [hc, List.map_const', List.sum_replicate,
    foldl_processBlock_length (chunks64 (shaPad msg)) H256 rfl]
  decide

/-- `List.getD` stays inside the list when the default is a member. -/
lemma getD_mem_of_mem (l : List Char) (n : ℕ) (d : Char) (hd : d ∈ l) :
    l.getD n d ∈ l := by
  rw [List.getD_eq_getElem?_getD]
  cases h : l[n]? with
  | none => simpa using hd
  | some x => simpa using List.getElem?_mem h

/-- Every nibble maps to one of the sixteen lowercase hex digits. -/
lemma hexChar_mem (n : ℕ) : hexChar n ∈ hexDigits :=
  getD_mem_of_mem _ _ _ (by decide)

/-- The hex string of a byte list has two characters per byte. -/
lemma bytesToHex_length (bs : List ℕ) : (bytesToHex bs).length = 2 * bs.length := by
  show ((bs.map byteToHex).flatten).length = 2 * bs.length
  rw [List.length_flatten, List.map_map]
  have hc : (List.length ∘ byteToHex) = fun _ : ℕ => 2 := funext fun x => rfl
  rw [hc, List.map_const', List.sum_replicate, smul_eq_mul, Nat.mul_comm]

/-- Every character of the hex string is a lowercase hex digit. -/
lemma bytesToHex_mem (bs : List ℕ) :
    ∀ c ∈ (bytesToHex bs).toList, c ∈ hexDigits := by
  intro c hc
  have hcf : c ∈ (bs.map byteToHex).flatten := hc
  obtain ⟨l, hl, hcl⟩ := List.mem_flatten.mp hcf
  obtain ⟨b, _, rfl⟩ := List.mem_map.mp hl
  simp only [byteToHex, List.mem_cons, List.not_mem_nil, or_false] at hcl
  rcases hcl with rfl | rfl <;> exact hexChar_mem _

/-- C4: `generate_commitment` fails with the invalid-input error exactly on
the empty salt; on any non-empty salt it deterministically returns the
SHA-256 digest of the UTF-8 bytes of the message followed by those of the
salt, rendered as a 64-character string of lowercase hex digits. -/
theorem generate_commitment_spec (message salt : String) :
    (salt = "" → generate_commitment message salt = .error .invalidInput)
      ∧ (salt ≠ "" →
          generate_commitment message salt
              = .ok (bytesToHex (sha256 (utf8Encode message ++ utf8Encode salt)))
            ∧ (commitment_digest message salt).length = 64
            ∧ ∀ c ∈ (commitment_digest message salt).toList, c ∈ hexDigits) := by
  constructor
  · intro h
    simp [generate_commitment, h]
  · intro h
    refine ⟨by simp [generate_commitment, h, commitment_digest], ?_, ?_⟩
    · unfold commitment_digest
      rw [bytesToHex_length, sha256_length]
    · exact bytesToHex_mem _

/-- C4 witness: the empty salt fails, and the spec's Scenario D inputs give
a 64-character digest. -/
theorem generate_commitment_spec_witness :
    generate_commitment "m" "" = .error .invalidInput
      ∧ (commitment_digest "Sunset over city skyline with birds flying"
          "test_salt").length = 64 :=
  ⟨(generate_commitment_spec "m" "").1 rfl,
   ((generate_commitment_spec "Sunset over city skyline with birds flying"
       "test_salt").2 (by decide)).2.1⟩

set_option maxRecDepth 20000 in
/-- Regression lock (spec Scenario D): the embedded SHA-256 reproduces the
reference digest of `commit("Sunset over city skyline with birds flying",
"test_salt")`. -/
theorem commitment_digest_reference_vector :
    commitment_digest "Sunset over city skyline with birds flying" "test_salt"
      = "05ba60fa7bb9efb3e7b3bfe1946d91d6bae3d0cc88918072ece01efbd1207cad" := by
  decide

/-- C5: the commitment round trip — verifying a revealed `(message, salt)`
pair against the commitment generated from the same pair always succeeds. -/
theorem verify_commitment_round_trip (message salt : String)
    (hm : message ≠ "") (hs : salt ≠ "") (d : String)
    (hd : generate_commitment message salt = .ok d) :
    verify_commitment message salt d = true := by
  unfold verify_commitment
  rw [hd]
  simp

set_option maxRecDepth 10000 in
/-- C5 witness: the round trip at `("hello", "salt123")` and its digest. -/
theorem verify_commitment_round_trip_witness :
    verify_commitment "hello" "salt123"
        "fad0706b7d6a10417a4b628d18dfc7c3a3680c147ab1f901dc2fa45778dafb27" = true :=
  verify_commitment_round_trip "hello" "salt123" (by decide) (by decide) _
    (by unfold generate_commitment
        rw [if_neg (by decide : ¬("salt123" = ""))]
        exact congrArg Except.ok (by decide))

/-- Unfolding of `verify_round_commitments` on a non-empty round. -/
lemma verify_round_commitments_ne (ps : List Participant) (hne : ps ≠ []) :
    verify_round_commitments ps
      = (some ((ps.map verify_participant).map Prod.fst),
         (ps.map verify_participant).all Prod.snd) := by
  unfold verify_round_commitments
  rw [if_neg hne]

/-- C3: on a non-empty round, `verify_round_commitments` returns true iff
every participant is fully revealed with a matching recomputed hash; the
updated records are persisted unconditionally (even when it returns false);
participants with missing data keep their stored `valid` flag; fully
revealed participants get `valid` set to the hash comparison (true on
match, false on mismatch). -/
theorem verify_round_commitments_spec (ps : List Participant) (hne : ps ≠ []) :
    ((verify_round_commitments ps).2 = true
        ↔ ∀ p ∈ ps, falsyStr p.guess = false ∧ falsyStr p.salt = false
            ∧ commitment_digest (p.guess.getD "") (p.salt.getD "") = p.commitment)
      ∧ (verify_round_commitments ps).1
          = some (ps.map (fun p => (verify_participant p).1))
      ∧ ∀ p ∈ ps,
          ((falsyStr p.guess = true ∨ falsyStr p.salt = true) →
            (verify_participant p).1.valid = p.valid)
          ∧ (falsyStr p.guess = false → falsyStr p.salt = false →
            (verify_participant p).1.valid
              = (commitment_digest (p.guess.getD "") (p.salt.getD "")
                  == p.commitment)) := by
  rw [verify_round_commitments_ne ps hne]
  refine ⟨?_, ?_, ?_⟩
  · simp only [List.all_eq_true, List.mem_map]
    constructor
    · intro h p hp
      exact (verify_participant_snd p).mp (h _ ⟨p, hp, rfl⟩)
    · rintro h x ⟨p, hp, rfl⟩
      exact (verify_participant_snd p).mpr (h p hp)
  · rw [List.map_map]
    rfl
  · intro p hp
    refine ⟨fun h => by rw [verify_participant_missing p h], fun h1 h2 => ?_⟩
    exact (verify_participant_data p h1 h2).1

/-- C3 witness: a singleton round with an unrevealed participant is
persisted unchanged and reported not fully valid. -/
theorem verify_round_commitments_spec_witness :
    (verify_round_commitments [⟨"alice", none, none, "c", true⟩]).1
        = some [⟨"alice", none, none, "c", true⟩]
      ∧ (verify_round_commitments [⟨"alice", none, none, "c", true⟩]).2 = false := by
  have h := verify_round_commitments_spec [⟨"alice", none, none, "c", true⟩]
    (by decide)
  exact ⟨by rw [h.2.1]; rfl, by decide⟩

/-- C10: a participant whose `guess` or `salt` is present but empty is
treated exactly like an unrevealed one: the record (and so its stored
`valid` flag) is returned untouched, no hash is recomputed (the skip branch
reports false without consulting the digest), and the whole round is
reported not fully valid. -/
theorem verify_round_empty_string_unrevealed (ps : List Participant)
    (p : Participant) (hp : p ∈ ps)
    (h : p.guess = some "" ∨ p.salt = some "") :
    verify_participant p = (p, false)
      ∧ (verify_round_commitments ps).2 = false := by
  have hf : falsyStr p.guess = true ∨ falsyStr p.salt = true := by
    rcases h with h | h
    · left
      simp [falsyStr, h]
    · right
      simp [falsyStr, h]
  have hvp := verify_participant_missing p hf
  refine ⟨hvp, ?_⟩
  rw [verify_round_commitments_ne ps (List.ne_nil_of_mem hp)]
  show ((ps.map verify_participant).all Prod.snd) = false
  rw [List.all_eq_false]
  exact ⟨verify_participant p, List.mem_map_of_mem _ hp, by rw [hvp]; simp⟩

/-- C10 witness: a participant with an empty-string guess in a singleton
round. -/
theorem verify_round_empty_string_unrevealed_witness :
    verify_participant ⟨"bob", some "", some "s", "c", true⟩
        = (⟨"bob", some "", some "s", "c", true⟩, false)
      ∧ (verify_round_commitments [⟨"bob", some "", some "s", "c", true⟩]).2
          = false :=
  verify_round_empty_string_unrevealed [⟨"bob", some "", some "s", "c", true⟩]
    ⟨"bob", some "", some "s", "c", true⟩ (by decide) (by decide)

/-! ### Scoring strategies and guess gating -/

/-- An embedding vector (1-D `np.ndarray` of floats). -/
abbrev Vec := List ℚ

/-- `np.dot` of two 1-D vectors. -/
def dot (v w : Vec) : ℚ := ((v.zip w).map (fun p => p.1 * p.2)).sum

/-- Python whitespace as stripped by `str.strip()` (ASCII part; the rare
non-ASCII Unicode spaces are not modelled). -/
def pyIsSpace (c : Char) : Bool :=
  c = ' ' ∨ c = '\t' ∨ c = '\n' ∨ c = '\r' ∨ c.toNat = 11 ∨ c.toNat = 12

/-- Python `str.strip()`: drop leading and trailing whitespace. -/
def pyStrip (s : String) : String :=
  String.mk (((s.toList.dropWhile pyIsSpace).reverse.dropWhile pyIsSpace).reverse)

/-- `RawSimilarityStrategy.calculate_score` from `src/scoring_strategies.py`
(lines 26–48): the raw dot product of text and image features. -/
def rawSimilarity_calculate_score (image_features text_features : Vec) : ℚ :=
  dot text_features image_features

/-- `BaselineAdjustedStrategy.calculate_score` from
`src/scoring_strategies.py` (lines 51–88): raw and baseline similarities,
baseline-relative adjustment, clamped at zero. -/
def baselineAdjusted_calculate_score
    (image_features text_features baseline_features : Vec) : ℚ :=
  let raw_score := dot text_features image_features
  let baseline_score := dot baseline_features image_features
  let adjusted_score := (raw_score - baseline_score) / (1 - baseline_score)
  max 0 adjusted_score

/-- `ScoreValidator.validate_guess` from
`src/core/calculate_scores_payout.py` (lines 129–141): reject falsy or
whitespace-only guesses, then anything over 300 characters. -/
def validate_guess (guess : String) : Bool :=
  if guess = "" ∨ pyStrip guess = "" then false
  else if guess.length > 300 then false
  else true

/-- `LegacyScoreValidator.validate_guess` from
`src/core/process_round_payouts.py` (lines 37–39): only requires a
non-empty, non-whitespace guess — no length ceiling. -/
def legacy_validate_guess (guess : String) : Bool :=
  if guess = "" ∨ pyStrip guess = "" then false else true

/-- `ScoreValidator.calculate_adjusted_score` (lines 143–156 of
`src/core/calculate_scores_payout.py`), with the embedder's
`get_text_embedding` passed as an oracle so that (non-)invocation is
visible: an invalid guess short-circuits to 0 before any text embedding. -/
def calculate_adjusted_score (get_text_embedding : String → Vec)
    (baseline_features image_features : Vec) (guess : String) : ℚ :=
  if validate_guess guess = false then 0
  else baselineAdjusted_calculate_score image_features
    (get_text_embedding guess) baseline_features

/-- `LegacyScoreValidator.calculate_adjusted_score` (lines 41–53 of
`src/core/process_round_payouts.py`): legacy gate, then raw similarity. -/
def legacy_calculate_adjusted_score (get_text_embedding : String → Vec)
    (image_features : Vec) (guess : String) : ℚ :=
  if legacy_validate_guess guess = false then 0
  else rawSimilarity_calculate_score image_features (get_text_embedding guess)

/-- C7 counterexample: the claim fails on the legacy validator — a
301-character guess passes `LegacyScoreValidator.validate_guess`, and the
legacy scorer hands it to the raw-similarity strategy (here scoring 1, not
the claimed forced 0) with the text embedder invoked. -/
theorem guess_gate_length_counterexample :
    legacy_validate_guess (String.mk (List.replicate 301 'a')) = true
      ∧ legacy_calculate_adjusted_score (fun _ => [1]) [1]
          (String.mk (List.replicate 301 'a')) = 1 := by
  constructor
  · decide
  · rw [legacy_calculate_adjusted_score, if_neg (by decide)]
    norm_num [rawSimilarity_calculate_score, dot]

/-- C7 amended: the current `ScoreValidator` gate forces score 0 — without
consulting the embedder oracle — exactly on empty, whitespace-only, or
over-300-character guesses, and otherwise defers to the baseline-adjusted
strategy on the embedded text; the legacy validator's gate has no length
ceiling: it forces 0 exactly on empty or whitespace-only guesses and scores
everything else (however long) with the raw-similarity strategy. -/
theorem guess_gate_spec (guess : String) :
    (validate_guess guess = false ↔ (pyStrip guess = "" ∨ 300 < guess.length))
      ∧ (legacy_validate_guess guess = false ↔ pyStrip guess = "")
      ∧ ((pyStrip guess = "" ∨ 300 < guess.length) →
          ∀ (f f' : String → Vec) (b img : Vec),
            calculate_adjusted_score f b img guess = 0
              ∧ calculate_adjusted_score f b img guess
                  = calculate_adjusted_score f' b img guess)
      ∧ ((pyStrip guess ≠ "" ∧ guess.length ≤ 300) →
          ∀ (f : String → Vec) (b img : Vec),
            calculate_adjusted_score f b img guess
              = baselineAdjusted_calculate_score img (f guess) b)
      ∧ (pyStrip guess = "" →
          ∀ (f f' : String → Vec) (img : Vec),
            legacy_calculate_adjusted_score f img guess = 0
              ∧ legacy_calculate_adjusted_score f img guess
                  = legacy_calculate_adjusted_score f' img guess)
      ∧ (pyStrip guess ≠ "" →
          ∀ (f : String → Vec) (img : Vec),
            legacy_calculate_adjusted_score f img guess
              = rawSimilarity_calculate_score img (f guess)) := by
  have hv : validate_guess guess = false
      ↔ (pyStrip guess = "" ∨ 300 < guess.length) := by
    unfold validate_guess
    by_cases h1 : guess = "" ∨ pyStrip guess = ""
    · have hstrip : pyStrip guess = "" := by
        rcases h1 with h1 | h1
        · rw [h1]
          rfl
        · exact h1
      simp [h1, hstrip]
    · push_neg at h1
      by_cases h2 : guess.length > 300
      · simp [h1.1, h1.2, h2]
      · simp [h1.1, h1.2, h2, not_lt.mp h2]
  have hlv : legacy_validate_guess guess = false ↔ pyStrip guess = "" := by
    unfold legacy_validate_guess
    by_cases h1 : guess = "" ∨ pyStrip guess = ""
    · have hstrip : pyStrip guess = "" := by
        rcases h1 with h1 | h1
        · rw [h1]
          rfl
        · exact h1
      simp [h1, hstrip]
    · push_neg at h1
      simp [h1.1, h1.2]
  refine ⟨hv, hlv, ?_, ?_, ?_, ?_⟩
  · intro h f f' b img
    have hf : validate_guess guess = false := hv.mpr h
    constructor
    · rw [calculate_adjusted_score, if_pos hf]
    · rw [calculate_adjusted_score, if_pos hf,
        calculate_adjusted_score, if_pos hf]
  · intro h f b img
    have hf : ¬validate_guess guess = false := by
      rw [hv]
      push_neg
      exact h
    rw [calculate_adjusted_score, if_neg hf]
  · intro h f f' img
    have hf : legacy_validate_guess guess = false := hlv.mpr h
    constructor
    · rw [legacy_calculate_adjusted_score, if_pos hf]
    · rw [legacy_calculate_adjusted_score, if_pos hf,
        legacy_calculate_adjusted_score, if_pos hf]
  · intro h f img
    have hf : ¬legacy_validate_guess guess = false := by
      rw [hlv]
      exact h
    rw [legacy_calculate_adjusted_score, if_neg hf]

/-- C7 witness: a 5-character guess passes both gates and reaches the
strategies; the empty guess is forced to 0 by both. -/
theorem guess_gate_spec_witness :
    calculate_adjusted_score (fun _ => [1]) [0] [1] "hello"
        = baselineAdjusted_calculate_score [1] [1] [0]
      ∧ calculate_adjusted_score (fun _ => [1]) [0] [1] "" = 0
      ∧ legacy_calculate_adjusted_score (fun _ => [1]) [1] "hello"
          = rawSimilarity_calculate_score [1] [1]
      ∧ legacy_calculate_adjusted_score (fun _ => [1]) [1] "" = 0 :=
  ⟨(guess_gate_spec "hello").2.2.2.1 (by decide) (fun _ => [1]) [0] [1],
   ((guess_gate_spec "").2.2.1 (by decide) (fun _ => [1]) (fun _ => [1]) [0] [1]).1,
   (guess_gate_spec "hello").2.2.2.2.2 (by decide) (fun _ => [1]) [1],
   ((guess_gate_spec "").2.2.2.2.1 (by decide) (fun _ => [1]) (fun _ => [1]) [1]).1⟩

/-- C8: the baseline-adjusted strategy returns exactly
`max 0 ((raw - baseline) / (1 - baseline))` with `raw` and `baseline` the
dot products against the image vector, and the result is never negative —
in particular not when raw similarity is below baseline similarity. -/
theorem baseline_adjusted_formula_and_clamp (image text baseline : Vec) :
    baselineAdjusted_calculate_score image text baseline
        = max 0 ((dot text image - dot baseline image) / (1 - dot baseline image))
      ∧ 0 ≤ baselineAdjusted_calculate_score image text baseline :=
  ⟨rfl, le_max_left _ _⟩

end Cliptions
